import Mathlib

/-!
Verification of the context-generation core of the `contextdropper` repository
(`context_generator.py`, `db_manager.py`).

Shallow embedding conventions:

* A Python `str` is modelled as `List Char` (`Str`).  The Lean `String`
  operations are not used in computations; the Python operations that the
  source relies on (`str.strip`, `str.lower`, `str.split(',')`,
  `str.startswith`, `str.endswith`, ordinal `<` comparison) are re-implemented
  structurally on `List Char` so that every definition evaluates by `rfl` or
  `decide`.
* A filesystem path is modelled as its list of components, `PathC`
  (`List Str`).  `os.sep` is `'/'` (the POSIX model); `os.path.normpath` on an
  already-normalized absolute path is the identity and is therefore dropped.
  `os.path.normcase` is the identity on POSIX and lowercases on Windows; it is
  modelled by `normcase fold` where `fold = false` is the POSIX behaviour and
  `fold = true` the case-folding (Windows) behaviour.
* The filesystem is a forest of named entries (`FSEntry`); file entries carry
  a `FileData` describing what `open`/`read` does on them.  Directory walks
  (`os.walk`, `os.listdir`) are translated with an explicit `fuel : Nat`
  bounding the recursion depth, so that the definitions are structurally
  recursive and kernel-computable; any fuel at least the height of the
  relevant subtree gives the source behaviour, and theorems quantify over the
  fuel.
-/

namespace ContextDropper

/-- Python `str` modelled as a list of characters. -/
abbrev Str := List Char

/-- A filesystem path as its list of components (absolute, from the
filesystem root). -/
abbrev PathC := List Str

/-- The check `beginsWith pre l` is Python `l.startswith(pre)` for strings, and the
"`pre` is a leading component run of `l`" check for component paths. -/
def beginsWith [BEq α] : List α → List α → Bool
  | [], _ => true
  | _ :: _, [] => false
  | a :: as, b :: bs => a == b && beginsWith as bs

/-- Python `l.endswith(suf)` (string suffix test), via `beginsWith` on the
reversed lists. -/
def endsWithL [BEq α] (suf l : List α) : Bool :=
  beginsWith suf.reverse l.reverse

/-- The check `strictlyUnder d p` is the source's `p.startswith(d + os.sep)` on paths,
component-wise: `d` is a proper leading component run of `p`. -/
def strictlyUnder [BEq α] (d p : List α) : Bool :=
  beginsWith d p && decide (d.length < p.length)

/-- The whitespace characters stripped by Python `str.strip()`. -/
def isPySpace (c : Char) : Bool :=
  c == ' ' || c == '\t' || c == '\n' || c == '\r' || c == '\x0b' || c == '\x0c'

/-- Python `str.strip()`: drop whitespace from both ends. -/
def strip (s : Str) : Str :=
  ((s.dropWhile isPySpace).reverse.dropWhile isPySpace).reverse

/-- Python `str.lower()` (ASCII case folding, which covers every string the
source compares). -/
def lower (s : Str) : Str := s.map Char.toLower

/-- Model of `os.path.normcase`: the identity on POSIX (`fold = false`), lowercasing on
Windows (`fold = true`).  The Windows separator translation is invisible in
the component model. -/
def normcase (fold : Bool) (s : Str) : Str :=
  if fold then lower s else s

/-- Model of `os.path.normcase` applied to a whole path, component by component. -/
def normKey (fold : Bool) (p : PathC) : PathC := p.map (normcase fold)

/-- Python `str.split(',')`. -/
def splitComma : Str → List Str
  | [] => [[]]
  | c :: rest =>
      if c = ',' then [] :: splitComma rest
      else
        match splitComma rest with
        | [] => [[c]]
        | t :: ts => (c :: t) :: ts

/-- Python ordinal string comparison `a < b` (code-point lexicographic). -/
def strLtB : Str → Str → Bool
  | [], [] => false
  | [], _ :: _ => true
  | _ :: _, [] => false
  | a :: as, b :: bs => if a < b then true else if a = b then strLtB as bs else false

/-- The non-strict companion of `strLtB`; `Python sorted` orders by `strLtB`
and this is the reflexive closure used by the stable sort below. -/
def strLeB (a b : Str) : Bool := !(strLtB b a)

/-- Insert into a sorted list, before the first element not `le`-below the new
one (this placement makes `sortLe` stable, as Python `sorted` is). -/
def insertLe (le : α → α → Bool) (a : α) : List α → List α
  | [] => [a]
  | b :: l => if le a b then a :: b :: l else b :: insertLe le a l

/-- Stable insertion sort, modelling Python `sorted`/`list.sort`. -/
def sortLe (le : α → α → Bool) : List α → List α
  | [] => []
  | a :: l => insertLe le a (sortLe le l)

/-- Join path components with `'/'` (`os.sep` in the POSIX model), as the
source's path strings and `os.path.relpath` results display. -/
def joinDisp : PathC → Str
  | [] => []
  | [c] => c
  | c :: rest => c ++ '/' :: joinDisp rest

/-- What `open`/`read` does on a file, covering the four behaviours the
source distinguishes in `generate_context_file_data` (lines 300-325). -/
inductive FileData where
  | text (content : Str)
  | nulBinary
  | sniffError
  | readError (msg : Str)
deriving DecidableEq

/-- A filesystem entry: a named file (with its read behaviour) or a named
directory with children.  The filesystem itself is the root forest
`List FSEntry`; an absolute path is the component list from that root. -/
inductive FSEntry where
  | file (name : Str) (data : FileData)
  | dir (name : Str) (children : List FSEntry)

/-- The name of an entry. -/
def FSEntry.name : FSEntry → Str
  | .file n _ => n
  | .dir n _ => n

/-- The first child with the given name (directory listings hold distinct
names, so this is the lookup `os` performs). -/
def childNamed (cs : List FSEntry) (n : Str) : Option FSEntry :=
  cs.find? (fun c => c.name == n)

/-- Resolve an absolute path in the filesystem forest (`os.path.exists` /
`os.path.isdir` / `open` all go through this).  `fuel` bounds the descent
depth; any fuel at least the path length is enough. -/
def findEntry : Nat → List FSEntry → PathC → Option FSEntry
  | 0, _, _ => none
  | _ + 1, _, [] => none
  | fuel + 1, cs, c :: rest =>
      match childNamed cs c with
      | none => none
      | some e =>
          match rest, e with
          | [], _ => some e
          | _ :: _, .file _ _ => none
          | r :: rs, .dir _ cs' => findEntry fuel cs' (r :: rs)

/-- The list `DEFAULT_TREE_IGNORED_NAMES` from `context_generator.py` (lines 10-13). -/
def defaultTreeIgnoredNames : List Str :=
  ["__pycache__".toList, "node_modules".toList, "target".toList, "build".toList,
   ".venv".toList, "venv".toList, ".git".toList, "dist".toList, ".DS_Store".toList]

/-- The pruning test of the resolver's walk (line 256):
`d in DEFAULT_TREE_IGNORED_NAMES or d.startswith('.')`.  Note that this prune
is unconditional — the walk has no exemption for explicitly selected
subdirectories. -/
def walkPrunes (d : Str) : Bool :=
  defaultTreeIgnoredNames.contains d || beginsWith ['.'] d

/-- Model of `os.walk` over the children of a directory, with the source's in-place
pruning of the `dirs` list (lines 255-256): yields the walk-relative
component paths (directory components followed by the filename) of every file
reached.  At each level the files are yielded first, then the non-pruned
subdirectories are descended into, as `os.walk` does top-down. -/
def walkChildren : Nat → List FSEntry → List PathC
  | 0, _ => []
  | fuel + 1, cs =>
      (cs.foldr (fun c acc =>
        (match c with
         | .file n _ => [[n]]
         | .dir _ _ => []) ++ acc) []) ++
      cs.foldr (fun c acc =>
        (match c with
         | .file _ _ => []
         | .dir d cs' =>
             if walkPrunes d then [] else (walkChildren fuel cs').map (fun p => d :: p)) ++ acc) []

/-- Model of `os.walk(sel_path)` itself: walking a directory walks its children;
walking a path that is a plain file yields nothing, as `os.walk` does. -/
def walkSelection (fuel : Nat) : FSEntry → List PathC
  | .file _ _ => []
  | .dir _ cs => walkChildren fuel cs

/-- Token parsing of a directory selection's `file_types` string
(lines 246-253): split on `','`, strip each token, drop empty tokens; a token
starting with `'.'` is lowercased into `allowed_extensions`, any other token
is normcased into `exact_filenames_normcased`. -/
def parseFilterTokens (fold : Bool) (s : Str) : List Str × List Str :=
  (splitComma s).foldl (fun acc ftRaw =>
    let ft := strip ftRaw
    if ft = [] then acc
    else if beginsWith ['.'] ft then (acc.1 ++ [lower ft], acc.2)
    else (acc.1, acc.2 ++ [normcase fold ft])) ([], [])

/-- The two token lists of a directory selection, honouring the Python
truthiness test `if sel['file_types']:` (line 246): both `None` and the empty
string yield no tokens. -/
def dirFilterLists (fold : Bool) : Option Str → List Str × List Str
  | none => ([], [])
  | some s => if s = [] then ([], []) else parseFilterTokens fold s

/-- The per-file inclusion decision of the resolver (lines 264-270): no
tokens at all means include everything; otherwise match by exact normcased
filename or by lowercased-extension suffix on the normcased filename. -/
def includeByFilter (fold : Bool) (exts exacts : List Str) (fileName : Str) : Bool :=
  let fn := normcase fold fileName
  if exts.isEmpty && exacts.isEmpty then true
  else if exacts.contains fn then true
  else exts.any (fun e => endsWithL e fn)

/-- A selection row as the resolver receives it from the database: a
(normcased) absolute path, the directory flag, and the optional file-type
filter string. -/
structure Selection where
  path : PathC
  isDirectory : Bool
  fileTypes : Option Str
deriving DecidableEq

/-- The inputs shared by every step of `generate_context_file_data`. -/
structure GenEnv where
  fold : Bool
  fuel : Nat
  fs : List FSEntry
  projectRoot : PathC
  leafName : Str

/-- The key `context_txt_abs_path_normcased` (line 221): the artifact's own output
path, `normcase(join(normpath(project_path), leaf))`. -/
def ctxKey (env : GenEnv) : PathC :=
  normKey env.fold (env.projectRoot ++ [env.leafName])

/-- The normcased project root (line 220). -/
def projKey (env : GenEnv) : PathC := normKey env.fold env.projectRoot

/-- Display path for a file found by a directory walk (lines 273-281).
For a file under the project root the source rewrites the normcased project
prefix back to original case and takes `relpath` against the original-case
root, which leaves exactly the normcased walk-relative components; otherwise
a file reached from a selection other than the project root is tagged
`EXTERNAL:` with the basenames of the file and of the selection. -/
def displayForWalkFile (env : GenEnv) (selPath full : PathC) : Str :=
  if strictlyUnder (projKey env) full then joinDisp (full.drop (projKey env).length)
  else if selPath ≠ projKey env then
    "EXTERNAL:".toList ++ full.getLastD [] ++ " (from ".toList ++ selPath.getLastD []
      ++ "/...)".toList
  else joinDisp full

/-- Display path for a single-file selection (lines 287-295). -/
def displayForFileSel (env : GenEnv) (selPath : PathC) : Str :=
  if strictlyUnder (projKey env) selPath then joinDisp (selPath.drop (projKey env).length)
  else if selPath ≠ projKey env then "EXTERNAL:".toList ++ selPath.getLastD []
  else joinDisp selPath

/-- The warning line appended for a selection whose path no longer exists
(lines 234-240). -/
def warningLine (env : GenEnv) (selPath : PathC) : Str :=
  let disp := if strictlyUnder (projKey env) selPath then
      joinDisp (selPath.drop (projKey env).length)
    else joinDisp selPath
  "----- Warning: Selected path not found: ".toList ++ disp ++ " -----".toList

/-- Python `dict` assignment `m[k] = v`: overwrite in place if the key is
present, else append (`files_to_include` keeps insertion order). -/
def upsert [BEq α] (m : List (α × β)) (k : α) (v : β) : List (α × β) :=
  if m.any (fun kv => kv.1 == k) then
    m.map (fun kv => if kv.1 == k then (k, v) else kv)
  else m ++ [(k, v)]

/-- The keys of an association list (the key view of `files_to_include`). -/
def keysOf (m : List (α × β)) : List α := m.map Prod.fst

/-- The state threaded through the selection loop of
`generate_context_file_data` (lines 230-296): the warning lines appended to
`context_content_lines` so far, and the `files_to_include` dict. -/
structure GenAcc where
  warnings : List Str
  files : List (PathC × Str)

/-- One iteration of the selection loop (lines 230-296): a missing path adds
a warning; a directory selection walks the directory with pruning, skips the
artifact's own path, filters by the parsed tokens and upserts each surviving
file; a file selection upserts its path unless it is the artifact's own
path. -/
def processSelection (env : GenEnv) (acc : GenAcc) (sel : Selection) : GenAcc :=
  match findEntry env.fuel env.fs sel.path with
  | none => { acc with warnings := acc.warnings ++ [warningLine env sel.path] }
  | some e =>
      if sel.isDirectory then
        let fl := dirFilterLists env.fold sel.fileTypes
        { acc with
          files := (walkSelection env.fuel e).foldl (fun fmap rel =>
            let full := normKey env.fold (sel.path ++ rel)
            if full = ctxKey env then fmap
            else if includeByFilter env.fold fl.1 fl.2 (rel.getLastD []) then
              upsert fmap full (displayForWalkFile env sel.path full)
            else fmap) acc.files }
      else
        if sel.path = ctxKey env then acc
        else { acc with files := upsert acc.files sel.path (displayForFileSel env sel.path) }

/-- The whole selection loop: warnings and inclusion dict after every
selection has been processed. -/
def resolveSelections (env : GenEnv) (sels : List Selection) : GenAcc :=
  sels.foldl (processSelection env) ⟨[], []⟩

/-- The keys a single selection contributes to the inclusion dict (the
specification-level reading of one loop iteration, provably equal in key-set
terms to what `processSelection` upserts). -/
def selIncludedKeys (env : GenEnv) (sel : Selection) : List PathC :=
  match findEntry env.fuel env.fs sel.path with
  | none => []
  | some e =>
      if sel.isDirectory then
        let fl := dirFilterLists env.fold sel.fileTypes
        ((walkSelection env.fuel e).filter (fun rel =>
          (normKey env.fold (sel.path ++ rel) != ctxKey env) &&
            includeByFilter env.fold fl.1 fl.2 (rel.getLastD []))).map
          (fun rel => normKey env.fold (sel.path ++ rel))
      else
        if sel.path = ctxKey env then [] else [sel.path]

/-- The value stored in `relative_selected_paths_data` (lines 52-55). -/
structure SelInfo where
  isDirectory : Bool
  fileTypes : Option Str
deriving DecidableEq

/-- Association-list lookup, the Python `dict` read. -/
def lookupAssoc [BEq α] (m : List (α × β)) (k : α) : Option β :=
  (m.find? (fun kv => kv.1 == k)).map Prod.snd

/-- Python `k in d` on an association-list dict. -/
def hasKey [BEq α] (m : List (α × β)) (k : α) : Bool :=
  m.any (fun kv => kv.1 == k)

/-- The map `relative_selected_paths_data` (lines 38-55): for every selection at or
under the project root, map its normcased project-relative path (empty for
the root itself) to its directory flag and filter string. -/
def relSelData (fold : Bool) (projK : PathC) (sels : List Selection) :
    List (PathC × SelInfo) :=
  sels.foldl (fun m sel =>
    if strictlyUnder projK sel.path || sel.path == projK then
      let rel := if sel.path == projK then [] else sel.path.drop projK.length
      upsert m (normKey fold rel) ⟨sel.isDirectory, sel.fileTypes⟩
    else m) []

/-- The ancestor prefixes checked by `is_file_included_by_directory_filter`
(line 80): `parts[:i]` for `i` from `len(parts) - 1` down to `0`, i.e. every
proper prefix of the file's relative path, nearest parent first, ending with
the project root `[]`. -/
def ancestorPrefixes (parts : PathC) : List PathC :=
  (List.range parts.length).reverse.map (fun i => parts.take i)

/-- The token match performed inside `is_file_included_by_directory_filter`
(lines 92-112) for one selected ancestor directory: a `None` filter admits
everything, otherwise the same token lists as the resolver are compared
against the normcased filename.  Unlike the resolver (line 265), an empty
token list here matches nothing. -/
def treeFilterAdmits (fold : Bool) (info : SelInfo) (fileName : Str) : Bool :=
  info.isDirectory &&
    match info.fileTypes with
    | none => true
    | some s =>
        let fl := parseFilterTokens fold s
        let fn := normcase fold fileName
        fl.2.contains fn || fl.1.any (fun e => endsWithL e fn)

/-- Model of `is_file_included_by_directory_filter` (lines 66-113): true when some
selected ancestor directory's filter admits the file. -/
def inclByAncestorFilter (fold : Bool) (selData : List (PathC × SelInfo))
    (relPath : PathC) (fileName : Str) : Bool :=
  (ancestorPrefixes relPath).any (fun anc =>
    match lookupAssoc selData (normKey fold anc) with
    | none => false
    | some info => treeFilterAdmits fold info fileName)

/-- The parameters of `build_tree` that stay fixed during the recursion. -/
structure TreeCtx where
  fold : Bool
  selData : List (PathC × SelInfo)
  ignoredNames : List Str

/-- The entry filter of `build_tree` (lines 119-129): keep an entry when it
is neither a dotname nor ignored, or when it is a dotname but explicitly
selected, or when it is ignored but explicitly selected. -/
def keepTreeEntry (ctx : TreeCtx) (parentRel : PathC) (name : Str) : Bool :=
  let selected := hasKey ctx.selData (normKey ctx.fold (parentRel ++ [name]))
  (!(beginsWith ['.'] name) && !(ctx.ignoredNames.contains name)) ||
    (beginsWith ['.'] name && selected) ||
    (ctx.ignoredNames.contains name && selected)

/-- The `(Dir: ...)` suffix appended to an explicitly selected directory's
line (lines 160-164); a falsy (`None` or empty) filter displays `ALL`. -/
def dirInfoSuffix (info : SelInfo) : Str :=
  if info.isDirectory then
    " (Dir: ".toList ++
      (match info.fileTypes with
       | some s => if s = [] then "ALL".toList else s
       | none => "ALL".toList) ++ ")".toList
  else []

/-- The test `is_ancestor_of_selected` (lines 166-168 and 175-177): some selected
relative key lies strictly under this entry. -/
def ancestorOfSelected (ctx : TreeCtx) (key : PathC) : Bool :=
  ctx.selData.any (fun kv => strictlyUnder key kv.1)

/-- The marker suffix of one tree line (lines 147-170): `" [*]"` (plus filter
info for a selected directory) when the entry is explicitly selected or is a
file admitted by an ancestor directory filter; `" [...]"` for an unmarked
directory with a selected descendant; nothing otherwise. -/
def treeEntryMark (ctx : TreeCtx) (isDirE : Bool) (key : PathC) (name : Str) : Str :=
  let selected := hasKey ctx.selData key
  let shouldMark := selected || (!isDirE && inclByAncestorFilter ctx.fold ctx.selData key name)
  if shouldMark then
    " [*]".toList ++
      (if selected && isDirE then
        match lookupAssoc ctx.selData key with
        | some info => dirInfoSuffix info
        | none => []
      else [])
  else if isDirE && ancestorOfSelected ctx key then " [...]".toList
  else []

/-- The recursion guard of `build_tree` (lines 174-179): descend into a
directory entry when it is explicitly selected, has a selected descendant, or
the current indentation is still shorter than 12 characters. -/
def treeShouldRecurse (ctx : TreeCtx) (key : PathC) (pfx : Str) : Bool :=
  hasKey ctx.selData key || ancestorOfSelected ctx key || decide (pfx.length < 12)

/-- Number the elements of a list from a starting index (the `enumerate` of
the entry loop at line 135). -/
def enumIdx : Nat → List α → List (Nat × α)
  | _, [] => []
  | i, a :: as => (i, a) :: enumIdx (i + 1) as

/-- Model of `build_tree` (lines 115-181) over the children of one directory: filter
and sort the entry names, then emit one line per entry (indentation, box
connector, name, marker) followed by the lines of the recursion into
directory entries that pass the recursion guard.  `fuel` bounds the depth;
any fuel at least the height of the directory gives the source behaviour
(the source recursion terminates because the filesystem is finite). -/
def buildTree : Nat → TreeCtx → List FSEntry → PathC → Str → List Str
  | 0, _, _, _, _ => []
  | fuel + 1, ctx, cs, parentRel, pfx =>
      let names := sortLe strLeB ((cs.map FSEntry.name).filter (keepTreeEntry ctx parentRel))
      let n := names.length
      (enumIdx 0 names).foldr (fun en acc =>
        let name := en.2
        let isLast := en.1 = n - 1
        let entryRel := parentRel ++ [name]
        let key := normKey ctx.fold entryRel
        let isDirE := match childNamed cs name with
          | some (.dir _ _) => true
          | _ => false
        let connector := if isLast then "└── ".toList else "├── ".toList
        let line := pfx ++ connector ++ name ++ treeEntryMark ctx isDirE key name
        let subLines :=
          if isDirE && treeShouldRecurse ctx key pfx then
            match childNamed cs name with
            | some (.dir _ cs') =>
                buildTree fuel ctx cs' entryRel (pfx ++ (if isLast then "    ".toList else "│   ".toList))
            | _ => []
          else []
        (line :: subLines) ++ acc) []

/-- Join lines with `'\n'` (the `"\n".join(summary_lines)` of line 204). -/
def joinLines : List Str → Str
  | [] => []
  | [l] => l
  | l :: rest => l ++ '\n' :: joinLines rest

/-- The root line of the summary (lines 183-191): project basename, `os.sep`,
and the root marker when the project root itself is selected. -/
def rootLine (projectRoot : PathC) (selData : List (PathC × SelInfo)) : Str :=
  let marker := match lookupAssoc selData ([] : PathC) with
    | some info => " [*]".toList ++ dirInfoSuffix info
    | none => []
  projectRoot.getLastD [] ++ "/".toList ++ marker

/-- One line of the trailing outside-project section (lines 197-203). -/
def outsideLine (sel : Selection) : Str :=
  if sel.isDirectory then
    joinDisp sel.path ++ " [*] (Dir: ".toList ++
      (match sel.fileTypes with
       | some s => if s = [] then "ALL".toList else s
       | none => "ALL".toList) ++ ")".toList
  else joinDisp sel.path ++ " [*]".toList

/-- Model of `generate_project_tree_summary` (lines 15-204): the annotated tree of the
project, as one string, with the trailing section for selections outside the
project root. -/
def generateProjectTreeSummary (env : GenEnv) (sels : List Selection) : Str :=
  match findEntry env.fuel env.fs env.projectRoot with
  | some (.dir _ rootCs) =>
      let projK := projKey env
      let selData := relSelData env.fold projK sels
      let outside := sels.filter (fun s => !(strictlyUnder projK s.path || s.path == projK))
      let ctx : TreeCtx := ⟨env.fold, selData, defaultTreeIgnoredNames ++ [env.leafName]⟩
      let treeLines := rootLine env.projectRoot selData ::
        buildTree env.fuel ctx rootCs [] "  ".toList
      let outsideLines :=
        if outside.isEmpty then []
        else ("\n----- Other Selected Items (Outside Project Root) -----".toList) ::
          (sortLe (fun a b => strLeB (joinDisp a.path) (joinDisp b.path)) outside).map outsideLine
      joinLines (treeLines ++ outsideLines)
  | _ =>
      "Error: Project path '".toList ++ joinDisp env.projectRoot ++
        "' is not a valid directory.".toList

/-- The binary-extension test of the aggregation loop (line 303):
`file_path_abs_normcased.endswith(ext.lower())` for some configured
extension. -/
def isBinaryExt (binExts : List Str) (key : PathC) : Bool :=
  binExts.any (fun e => endsWithL (lower e) (joinDisp key))

/-- What opening the path found in the inclusion dict does.  The dict only
ever holds paths of existing files when the database matches the filesystem,
but the source also survives a stale entry: opening a directory or a vanished
path raises, which the aggregation loop turns into an error block.  The two
raise messages model the OS exception text. -/
def readOutcome (env : GenEnv) (key : PathC) : FileData :=
  match findEntry env.fuel env.fs key with
  | some (.file _ d) => d
  | some (.dir _ _) => .readError "Is a directory".toList
  | none => .readError "No such file or directory".toList

/-- The lines emitted for one included file (lines 300-325): classify as
binary by extension, else by the NUL sniff of the first 1 KB (a sniff that
raises also classifies as binary, line 308); a binary file gets a
header/footer pair and no body; otherwise a successful read gets a header,
the stripped content and a footer, and a read that raises gets an error
header, `Error: <message>` and an error footer.  The surrounding `try` means
every file yields exactly one of these blocks and nothing escapes. -/
def fileBlock (binExts : List Str) (key : PathC) (disp : Str) (d : FileData) : List Str :=
  let isBin := isBinaryExt binExts key ||
    (match d with
     | .nulBinary => true
     | .sniffError => true
     | _ => false)
  if isBin then
    ["----- File: ".toList ++ disp ++ " (Skipped Binary File) -----".toList,
     "----- End File: ".toList ++ disp ++ " -----\n".toList]
  else
    match d with
    | .text c =>
        ["----- File: ".toList ++ disp ++ " -----".toList,
         strip c,
         "----- End File: ".toList ++ disp ++ " -----\n".toList]
    | .readError m =>
        ["----- Error reading file: ".toList ++ disp ++ " -----".toList,
         "Error: ".toList ++ m,
         "----- End Error: ".toList ++ disp ++ " -----\n".toList]
    | _ => []

/-- The sort `sorted(files_to_include.keys(), key=...)` (line 298): the inclusion dict
entries sorted by display path under Python's ordinal string comparison (the
sort key is the display value and the sort is stable). -/
def sortedIncluded (files : List (PathC × Str)) : List (PathC × Str) :=
  sortLe (fun a b => strLeB a.2 b.2) files

/-- The aggregation loop (lines 300-325): the blocks of every included file,
in sorted order, appended one after another. -/
def contentBlocks (env : GenEnv) (binExts : List Str) (files : List (PathC × Str)) :
    List Str :=
  (sortedIncluded files).foldl (fun lines kv =>
    lines ++ fileBlock binExts kv.1 kv.2 (readOutcome env kv.1)) []

/-- The opening line of the structure block (line 223). -/
def structureHeaderLine : Str :=
  "----- Project Structure (Files included in context file indicated with *) -----".toList

/-- The closing line of the structure block (line 226). -/
def structureFooterLine : Str := "----- End Project Structure -----\n".toList

/-- Model of `generate_context_file_data` (lines 207-327): the header block with the
tree summary, then the selection loop (which appends one warning line per
missing selection while building the inclusion dict), then the per-file
content blocks. -/
def generateContextFileData (env : GenEnv) (sels : List Selection)
    (binExts : List Str) : List Str :=
  let acc := resolveSelections env sels
  [structureHeaderLine, generateProjectTreeSummary env sels, structureFooterLine] ++
    acc.warnings ++ contentBlocks env binExts acc.files

/-- A row of the `selections` table (`db_manager.py`, lines 47-59). -/
structure SelectionRow where
  id : Nat
  projectId : Nat
  path : Str
  isDirectory : Bool
  categoryId : Option Nat
  fileTypes : Option Str
deriving DecidableEq

/-- A row of the `categories` table (`db_manager.py`, lines 36-43). -/
structure CategoryRow where
  id : Nat
  projectId : Nat
  name : Str
deriving DecidableEq

/-- The two tables touched by `remove_category_and_uncategorize_items`. -/
structure Db where
  selections : List SelectionRow
  categories : List CategoryRow

/-- The statement `UPDATE selections SET category_id = NULL WHERE category_id = ?`
(`db_manager.py`, line 180), applied to one row. -/
def uncategorizeRow (cid : Nat) (r : SelectionRow) : SelectionRow :=
  if r.categoryId = some cid then { r with categoryId := none } else r

/-- Model of `remove_category_and_uncategorize_items` (`db_manager.py`, lines
177-189): null out `category_id` on every referencing selection row, then
delete the category row; the transaction commits both. -/
def removeCategoryAndUncategorizeItems (db : Db) (cid : Nat) : Db :=
  { selections := db.selections.map (uncategorizeRow cid),
    categories := db.categories.filter (fun c => c.id ≠ cid) }

/-!
Concrete fixtures used by the counterexample and witness theorems below.
Each models a small project directory tree and a selection set.
-/

/-- Fixture for the pruning claim: the project root is selected with no
filter (include everything), and the ignorable subdirectory `.git` is itself
a different, explicitly selected path with filter `.md`; `.git` contains
`a.py` and `b.md`. -/
def fsPrune : List FSEntry :=
  [.dir "proj".toList
    [.dir ".git".toList
      [.file "a.py".toList (.text "x".toList), .file "b.md".toList (.text "y".toList)],
     .file "top.py".toList (.text "t".toList)]]

/-- The environment over `fsPrune` (POSIX normcase, ample fuel). -/
def envPrune : GenEnv := ⟨false, 20, fsPrune, ["proj".toList], "context.txt".toList⟩

/-- A tiny walk fixture: a non-ignorable directory holding one file. -/
def subWalkFixture : List FSEntry :=
  [.dir "sub".toList [.file "a.py".toList (.text "x".toList)]]

/-- The all-files selection of the project root in the pruning fixture. -/
def selPruneRoot : Selection := ⟨["proj".toList], true, none⟩

/-- The explicit selection of the ignorable subdirectory `.git`. -/
def selPruneGit : Selection := ⟨["proj".toList, ".git".toList], true, some ".md".toList⟩

/-- Fixture for the case-sensitivity claim: a directory holding `notes.md`,
`NOTES.MD` and `image.png`. -/
def fsCase : List FSEntry :=
  [.dir "proj".toList
    [.file "notes.md".toList (.text "n".toList),
     .file "NOTES.MD".toList (.text "N".toList),
     .file "image.png".toList (.text "img".toList)]]

/-- The environment over `fsCase`, parameterized by the normcase behaviour
(`false` = POSIX identity, `true` = Windows case folding). -/
def envCase (fold : Bool) : GenEnv := ⟨fold, 20, fsCase, ["proj".toList], "context.txt".toList⟩

/-- The `.py,.md` directory selection of the case fixture. -/
def selCase : Selection := ⟨["proj".toList], true, some ".py,.md".toList⟩

/-- A one-file variant of the case fixture holding only `NOTES.MD`, so that
the two normcase behaviours can be compared without the two files' keys
colliding under case folding. -/
def fsUpper : List FSEntry :=
  [.dir "proj".toList [.file "NOTES.MD".toList (.text "N".toList)]]

/-- The environment over `fsUpper`. -/
def envUpper (fold : Bool) : GenEnv := ⟨fold, 20, fsUpper, ["proj".toList], "context.txt".toList⟩

/-- Fixture for the tree-marker claim: `src` is selected with filter `.py`
and the only included leaf `src/sub/a.py` sits below the unselected
intermediate directory `sub`. -/
def fsTreeCx : List FSEntry :=
  [.dir "proj".toList
    [.dir "src".toList [.dir "sub".toList [.file "a.py".toList (.text "z".toList)]]]]

/-- The environment over `fsTreeCx`. -/
def envTreeCx : GenEnv := ⟨false, 20, fsTreeCx, ["proj".toList], "context.txt".toList⟩

/-- The `.py` selection of `src` in the tree fixture. -/
def selTreeCx : Selection := ⟨["proj".toList, "src".toList], true, some ".py".toList⟩

/-- The `build_tree` context the summary builds for the tree fixture. -/
def ctxTreeCx : TreeCtx :=
  ⟨false, relSelData false (projKey envTreeCx) [selTreeCx],
   defaultTreeIgnoredNames ++ ["context.txt".toList]⟩

/-- The children of the project root in the tree fixture. -/
def rootChildrenTreeCx : List FSEntry :=
  [.dir "src".toList [.dir "sub".toList [.file "a.py".toList (.text "z".toList)]]]

/-- The rendered tree lines of the tree fixture (the `build_tree` output
below the root line). -/
def treeCxLines : List Str := buildTree 20 ctxTreeCx rootChildrenTreeCx [] "  ".toList

/-- Fixture for the output-order claim: the project root is selected with no
filter and holds `B.py` and `a.py`, whose display paths order differently
under ordinal and case-insensitive comparison. -/
def fsOrder : List FSEntry :=
  [.dir "proj".toList
    [.file "B.py".toList (.text "b".toList), .file "a.py".toList (.text "a".toList)]]

/-- The environment over `fsOrder`. -/
def envOrder : GenEnv := ⟨false, 20, fsOrder, ["proj".toList], "context.txt".toList⟩

/-- The all-files selection of the project root in the order fixture. -/
def selOrder : Selection := ⟨["proj".toList], true, none⟩

/-- A single-file selection of `a.py` in the order fixture (used to exhibit
order independence of a two-selection set). -/
def selOrderFile : Selection := ⟨["proj".toList, "a.py".toList], false, none⟩

/-- The generated artifact lines of the order fixture. -/
def orderOut : List Str := generateContextFileData envOrder [selOrder] []

/-- Fixture for the error-handling claim: `bad.py` raises on read, `ok.py`
reads fine. -/
def fsErr : List FSEntry :=
  [.dir "proj".toList
    [.file "bad.py".toList (.readError "Permission denied".toList),
     .file "ok.py".toList (.text "fine".toList)]]

/-- The environment over `fsErr`. -/
def envErr : GenEnv := ⟨false, 20, fsErr, ["proj".toList], "context.txt".toList⟩

/-- The inclusion dict of the error fixture under an all-files root
selection. -/
def errFiles : List (PathC × Str) :=
  (resolveSelections envErr [⟨["proj".toList], true, none⟩]).files

/-- Fixture for the self-exclusion claim: the project holds a stale
`context.txt` next to `a.py`, the root is selected with no filter, and
`context.txt` is additionally selected as a single file. -/
def fsSelf : List FSEntry :=
  [.dir "proj".toList
    [.file "context.txt".toList (.text "old".toList),
     .file "a.py".toList (.text "a".toList)]]

/-- The environment over `fsSelf`. -/
def envSelf : GenEnv := ⟨false, 20, fsSelf, ["proj".toList], "context.txt".toList⟩

/-- The all-files root selection of the self-exclusion fixture. -/
def selSelfDir : Selection := ⟨["proj".toList], true, none⟩

/-- The single-file selection of the artifact itself. -/
def selSelfFile : Selection := ⟨["proj".toList, "context.txt".toList], false, none⟩

/-!
Helper lemmas about the inclusion dict: the key set produced by the selection
loop is the union of the per-selection key lists.
-/

/-- A key is in the dict after an upsert iff it is the upserted key or was
already present. -/
theorem mem_keysOf_upsert {m : List (PathC × Str)} {k a : PathC} {v : Str} :
    a ∈ keysOf (upsert m k v) ↔ a = k ∨ a ∈ keysOf m := by
  unfold upsert keysOf
  split
  · rename_i h
    rcases List.any_eq_true.mp h with ⟨kv₀, hkv₀, hbeq₀⟩
    have hk₀ : kv₀.1 = k := by simpa using hbeq₀
    rw [List.map_map]
    have hmap : List.map (Prod.fst ∘ fun kv => if (kv.1 == k) = true then (k, v) else kv) m
        = List.map Prod.fst m := by
      apply List.map_congr_left
      intro kv _
      by_cases hb : kv.1 = k
      · simp [hb]
      · simp [hb]
    rw [hmap]
    have hkmem : k ∈ List.map Prod.fst m := List.mem_map.mpr ⟨kv₀, hkv₀, hk₀⟩
    constructor
    · exact fun ha => Or.inr ha
    · rintro (rfl | ha)
      · exact hkmem
      · exact ha
  · rw [List.map_append, List.mem_append]
    simp only [List.map_cons, List.map_nil, List.mem_singleton]
    tauto

/-- Key membership after the walk fold of one directory selection. -/
theorem mem_keys_walkFold (env : GenEnv) (selPath : PathC) (fl : List Str × List Str)
    (rels : List PathC) (init : List (PathC × Str)) (a : PathC) :
    a ∈ keysOf (rels.foldl (fun fmap rel =>
        let full := normKey env.fold (selPath ++ rel)
        if full = ctxKey env then fmap
        else if includeByFilter env.fold fl.1 fl.2 (rel.getLastD []) then
          upsert fmap full (displayForWalkFile env selPath full)
        else fmap) init) ↔
      a ∈ keysOf init ∨ ∃ rel ∈ rels, normKey env.fold (selPath ++ rel) ≠ ctxKey env ∧
        includeByFilter env.fold fl.1 fl.2 (rel.getLastD []) = true ∧
        a = normKey env.fold (selPath ++ rel) := by
  induction rels generalizing init with
  | nil => simp
  | cons rel rest ih =>
      simp only [List.foldl_cons]
      by_cases hctx : normKey env.fold (selPath ++ rel) = ctxKey env
      · rw [if_pos hctx, ih]
        constructor
        · rintro (h | h)
          · exact Or.inl h
          · rcases h with ⟨r, hr, h1, h2, h3⟩
            exact Or.inr ⟨r, List.mem_cons_of_mem _ hr, h1, h2, h3⟩
        · rintro (h | ⟨r, hr, h1, h2, h3⟩)
          · exact Or.inl h
          · rcases List.mem_cons.mp hr with rfl | hr'
            · exact absurd hctx h1
            · exact Or.inr ⟨r, hr', h1, h2, h3⟩
      · rw [if_neg hctx]
        by_cases hinc : includeByFilter env.fold fl.1 fl.2 (rel.getLastD []) = true
        · rw [if_pos hinc, ih, mem_keysOf_upsert]
          constructor
          · rintro ((rfl | h) | h)
            · exact Or.inr ⟨rel, List.mem_cons_self _ _, hctx, hinc, rfl⟩
            · exact Or.inl h
            · rcases h with ⟨r, hr, h1, h2, h3⟩
              exact Or.inr ⟨r, List.mem_cons_of_mem _ hr, h1, h2, h3⟩
          · rintro (h | ⟨r, hr, h1, h2, h3⟩)
            · exact Or.inl (Or.inr h)
            · rcases List.mem_cons.mp hr with rfl | hr'
              · exact Or.inl (Or.inl h3)
              · exact Or.inr ⟨r, hr', h1, h2, h3⟩
        · rw [if_neg hinc, ih]
          constructor
          · rintro (h | ⟨r, hr, h1, h2, h3⟩)
            · exact Or.inl h
            · exact Or.inr ⟨r, List.mem_cons_of_mem _ hr, h1, h2, h3⟩
          · rintro (h | ⟨r, hr, h1, h2, h3⟩)
            · exact Or.inl h
            · rcases List.mem_cons.mp hr with rfl | hr'
              · exact absurd h2 hinc
              · exact Or.inr ⟨r, hr', h1, h2, h3⟩

/-- One loop iteration adds exactly the selection's own key list to the key
set of the dict. -/
theorem mem_keys_processSelection (env : GenEnv) (acc : GenAcc) (sel : Selection)
    (a : PathC) :
    a ∈ keysOf (processSelection env acc sel).files ↔
      a ∈ keysOf acc.files ∨ a ∈ selIncludedKeys env sel := by
  unfold processSelection selIncludedKeys
  cases hfind : findEntry env.fuel env.fs sel.path with
  | none => simp
  | some e =>
      by_cases hdir : sel.isDirectory
      · simp only [hdir, if_pos]
        rw [mem_keys_walkFold]
        simp only [List.mem_map, List.mem_filter, Bool.and_eq_true, bne_iff_ne]
        constructor
        · rintro (h | ⟨rel, hrel, h1, h2, h3⟩)
          · exact Or.inl h
          · exact Or.inr ⟨rel, ⟨hrel, h1, h2⟩, h3.symm⟩
        · rintro (h | ⟨rel, ⟨hrel, h1, h2⟩, h3⟩)
          · exact Or.inl h
          · exact Or.inr ⟨rel, hrel, h1, h2, h3.symm⟩
      · simp only [hdir, Bool.false_eq_true, if_neg, reduceIte]
        by_cases hctx : sel.path = ctxKey env
        · simp [hctx]
        · simp [hctx, mem_keysOf_upsert]
          tauto

/-- Key membership after folding the whole selection list. -/
theorem mem_keys_foldl_process (env : GenEnv) (sels : List Selection) (acc : GenAcc)
    (a : PathC) :
    a ∈ keysOf (sels.foldl (processSelection env) acc).files ↔
      a ∈ keysOf acc.files ∨ ∃ sel ∈ sels, a ∈ selIncludedKeys env sel := by
  induction sels generalizing acc with
  | nil => simp
  | cons sel rest ih =>
      simp only [List.foldl_cons]
      rw [ih, mem_keys_processSelection]
      constructor
      · rintro ((h | h) | ⟨s, hs, hmem⟩)
        · exact Or.inl h
        · exact Or.inr ⟨sel, List.mem_cons_self _ _, h⟩
        · exact Or.inr ⟨s, List.mem_cons_of_mem _ hs, hmem⟩
      · rintro (h | ⟨s, hs, hmem⟩)
        · exact Or.inl (Or.inl h)
        · rcases List.mem_cons.mp hs with rfl | hs'
          · exact Or.inl (Or.inr hmem)
          · exact Or.inr ⟨s, hs', hmem⟩

/-- The key set of the resolved inclusion dict is the union over selections
of the per-selection key lists. -/
theorem mem_keys_resolve (env : GenEnv) (sels : List Selection) (a : PathC) :
    a ∈ keysOf (resolveSelections env sels).files ↔
      ∃ sel ∈ sels, a ∈ selIncludedKeys env sel := by
  unfold resolveSelections
  rw [mem_keys_foldl_process]
  simp [keysOf]

/-- Claim C3: for every input (project root, selections, artifact leaf name),
the resolved inclusion map never contains the artifact's own output path: a
file selection with that key is skipped, and every directory walk excludes a
file with that key even when the directory's filter would match it. -/
theorem artifact_self_exclusion (env : GenEnv) (sels : List Selection) :
    ctxKey env ∉ keysOf (resolveSelections env sels).files := by
  rw [mem_keys_resolve]
  rintro ⟨sel, hsel, hmem⟩
  unfold selIncludedKeys at hmem
  cases hfind : findEntry env.fuel env.fs sel.path with
  | none => rw [hfind] at hmem; simp at hmem
  | some e =>
      rw [hfind] at hmem
      dsimp only at hmem
      by_cases hdir : sel.isDirectory = true
      · rw [if_pos hdir] at hmem
        rcases List.mem_map.mp hmem with ⟨rel, hrel, heq⟩
        have hcond := (List.mem_filter.mp hrel).2
        simp only [Bool.and_eq_true, bne_iff_ne] at hcond
        exact hcond.1 heq
      · rw [if_neg hdir] at hmem
        by_cases hctx : sel.path = ctxKey env
        · rw [if_pos hctx] at hmem
          simp at hmem
        · rw [if_neg hctx] at hmem
          rw [List.mem_singleton] at hmem
          exact hctx hmem.symm

/-- Witness for the self-exclusion theorem: with a stale `context.txt` on
disk, matched by the root's all-files filter and even selected directly,
`a.py` is included but the artifact key is not. -/
theorem artifact_self_exclusion_witness :
    (["proj".toList, "a.py".toList] ∈
      keysOf (resolveSelections envSelf [selSelfDir, selSelfFile]).files) ∧
    ctxKey envSelf ∉ keysOf (resolveSelections envSelf [selSelfDir, selSelfFile]).files :=
  ⟨by decide, artifact_self_exclusion envSelf [selSelfDir, selSelfFile]⟩

/-- Claim C4: union and order-independence — a path key is in the final
inclusion map iff at least one selection includes it, and the key set is
invariant under any permutation of the selection list. -/
theorem inclusion_union_order_independent (env : GenEnv) (sels sels' : List Selection)
    (h : sels.Perm sels') :
    (∀ k, k ∈ keysOf (resolveSelections env sels).files ↔
        ∃ sel ∈ sels, k ∈ selIncludedKeys env sel) ∧
    (keysOf (resolveSelections env sels).files).toFinset =
      (keysOf (resolveSelections env sels').files).toFinset := by
  refine ⟨fun k => mem_keys_resolve env sels k, ?_⟩
  ext a
  simp only [List.mem_toFinset, mem_keys_resolve]
  constructor
  · rintro ⟨sel, hsel, hmem⟩
    exact ⟨sel, h.mem_iff.mp hsel, hmem⟩
  · rintro ⟨sel, hsel, hmem⟩
    exact ⟨sel, h.mem_iff.mpr hsel, hmem⟩

/-- Claim C2 counterexample: under the POSIX `normcase` (the identity), the
`.py,.md` directory filter is not case-insensitive on the filename side:
`NOTES.MD` is excluded from the inclusion map while `notes.md` is included
(and `image.png` is excluded), refuting inclusion of both spellings "on
every platform". -/
theorem dir_filter_not_case_insensitive_cx :
    ["proj".toList, "notes.md".toList] ∈
      keysOf (resolveSelections (envCase false) [selCase]).files ∧
    ["proj".toList, "NOTES.MD".toList] ∉
      keysOf (resolveSelections (envCase false) [selCase]).files ∧
    ["proj".toList, "image.png".toList] ∉
      keysOf (resolveSelections (envCase false) [selCase]).files := by
  decide

/-- Claim C2 (amended): a dot token is lowercased and compared as a suffix of
the `os.path.normcase`d filename, so the comparison is case-insensitive
exactly where `normcase` folds case (Windows); under the identity `normcase`
(POSIX) `NOTES.MD` fails the `.md` token while `notes.md` matches, and under
the folding `normcase` the `NOTES.MD` file is included (under its normcased
key).  `image.png` is excluded either way. -/
theorem dir_filter_suffix_normcase_amended :
    keysOf (resolveSelections (envUpper true) [selCase]).files =
      [["proj".toList, "notes.md".toList]] ∧
    keysOf (resolveSelections (envUpper false) [selCase]).files = [] ∧
    includeByFilter true [".md".toList] [] "NOTES.MD".toList = true ∧
    includeByFilter false [".md".toList] [] "NOTES.MD".toList = false ∧
    includeByFilter false [".md".toList] [] "notes.md".toList = true ∧
    includeByFilter false [".md".toList] [] "image.png".toList = false := by
  decide

/-- Membership in an append-accumulating `foldr`. -/
theorem mem_foldr_append {l : List α} {X : α → List β} {b : β} :
    b ∈ l.foldr (fun c acc => X c ++ acc) [] ↔ ∃ c ∈ l, b ∈ X c := by
  induction l with
  | nil => simp
  | cons c rest ih => simp [List.mem_append, ih]

/-- Claim C1 counterexample: with the project root selected with no filter
(admitting every file) and `.git` itself a different explicitly selected
path, the resolution still never reaches `.git/a.py`: the walk of the root
selection prunes `.git` unconditionally, and `.git/a.py` only fails `.git`'s
own `.md` filter.  (The claim asserts that an explicitly selected
subdirectory is descended into, which would have included `a.py` through the
root selection's all-files filter.) -/
theorem walk_prunes_selected_subdir_cx :
    selPruneGit ∈ [selPruneRoot, selPruneGit] ∧
    dirFilterLists false selPruneRoot.fileTypes = ([], []) ∧
    ["proj".toList, ".git".toList, "b.md".toList] ∈
      keysOf (resolveSelections envPrune [selPruneRoot, selPruneGit]).files ∧
    ["proj".toList, ".git".toList, "a.py".toList] ∉
      keysOf (resolveSelections envPrune [selPruneRoot, selPruneGit]).files := by
  decide

/-- Claim C1 (amended): the resolution walk prunes ignorable subdirectories
unconditionally — no path it yields ever passes through a directory whose
name is ignored or starts with a dot, selected or not.  (Files under an
explicitly selected ignorable directory can enter the map only through that
directory's own selection, against its own filter.) -/
theorem walk_never_descends_ignorable (fuel : Nat) (cs : List FSEntry) (p : PathC)
    (d : Str) (hp : p ∈ walkChildren fuel cs) (hd : d ∈ p.dropLast) :
    walkPrunes d = false := by
  induction fuel generalizing cs p with
  | zero => simp [walkChildren] at hp
  | succ fuel ih =>
      rw [walkChildren] at hp
      rcases List.mem_append.mp hp with hfile | hdirs
      · rcases mem_foldr_append.mp hfile with ⟨c, _, hb⟩
        cases c with
        | file n _ =>
            dsimp only at hb
            rw [List.mem_singleton] at hb
            subst hb
            simp at hd
        | dir _ _ => simp at hb
      · rcases mem_foldr_append.mp hdirs with ⟨c, _, hb⟩
        cases c with
        | file _ _ => simp at hb
        | dir dn cs' =>
            dsimp only at hb
            by_cases hpr : walkPrunes dn = true
            · rw [if_pos hpr] at hb
              simp at hb
            · rw [if_neg hpr] at hb
              rcases List.mem_map.mp hb with ⟨q, hq, rfl⟩
              cases q with
              | nil => simp at hd
              | cons q0 qs =>
                  rw [List.dropLast_cons₂] at hd
                  rcases List.mem_cons.mp hd with rfl | hd'
                  · exact Bool.not_eq_true _ ▸ eq_false_of_ne_true hpr
                  · exact ih cs' (q0 :: qs) hq hd'

/-- Witness for the unconditional-pruning theorem: the walk of a plain
directory yields `sub/a.py`, whose traversed directory `sub` is not
ignorable. -/
theorem walk_never_descends_ignorable_witness :
    (["sub".toList, "a.py".toList] ∈ walkChildren 2 subWalkFixture ∧
      "sub".toList ∈ (["sub".toList, "a.py".toList] : PathC).dropLast) ∧
    walkPrunes "sub".toList = false :=
  ⟨⟨by decide, by decide⟩,
   walk_never_descends_ignorable 2 subWalkFixture ["sub".toList, "a.py".toList]
     "sub".toList (by decide) (by decide)⟩

/-- Witness for the union/order-independence theorem: a concrete
two-selection set and its transposition. -/
theorem inclusion_union_order_independent_witness :
    (∀ k, k ∈ keysOf (resolveSelections envOrder [selOrder, selOrderFile]).files ↔
        ∃ sel ∈ [selOrder, selOrderFile], k ∈ selIncludedKeys envOrder sel) ∧
    (keysOf (resolveSelections envOrder [selOrder, selOrderFile]).files).toFinset =
      (keysOf (resolveSelections envOrder [selOrderFile, selOrder]).files).toFinset :=
  inclusion_union_order_independent envOrder _ _ (List.Perm.swap _ _ _)

/-- Every token collected by the filter parse comes from a stripped nonempty
raw token of the list: extensions from dot tokens (lowercased), exact
filenames from non-dot tokens (normcased). -/
theorem parse_foldl_sound (fold : Bool) (l : List Str) (ab : List Str × List Str) :
    (∀ e ∈ (l.foldl (fun acc ftRaw =>
        let ft := strip ftRaw
        if ft = [] then acc
        else if beginsWith ['.'] ft then (acc.1 ++ [lower ft], acc.2)
        else (acc.1, acc.2 ++ [normcase fold ft])) ab).1,
      e ∈ ab.1 ∨ ∃ t ∈ l, strip t ≠ [] ∧ beginsWith ['.'] (strip t) = true ∧
        e = lower (strip t)) ∧
    (∀ x ∈ (l.foldl (fun acc ftRaw =>
        let ft := strip ftRaw
        if ft = [] then acc
        else if beginsWith ['.'] ft then (acc.1 ++ [lower ft], acc.2)
        else (acc.1, acc.2 ++ [normcase fold ft])) ab).2,
      x ∈ ab.2 ∨ ∃ t ∈ l, strip t ≠ [] ∧ beginsWith ['.'] (strip t) = false ∧
        x = normcase fold (strip t)) := by
  induction l generalizing ab with
  | nil => simp
  | cons t0 rest ih =>
      simp only [List.foldl_cons]
      by_cases h0 : strip t0 = []
      · have hstep : (let ft := strip t0
            if ft = [] then ab
            else if beginsWith ['.'] ft then (ab.1 ++ [lower ft], ab.2)
            else (ab.1, ab.2 ++ [normcase fold ft])) = ab := by
          simp [h0]
        rw [hstep]
        constructor
        · intro e he
          rcases (ih ab).1 e he with h | ⟨t, ht, h1, h2, h3⟩
          · exact Or.inl h
          · exact Or.inr ⟨t, List.mem_cons_of_mem _ ht, h1, h2, h3⟩
        · intro x hx
          rcases (ih ab).2 x hx with h | ⟨t, ht, h1, h2, h3⟩
          · exact Or.inl h
          · exact Or.inr ⟨t, List.mem_cons_of_mem _ ht, h1, h2, h3⟩
      · by_cases hdot : beginsWith ['.'] (strip t0) = true
        · have hstep : (let ft := strip t0
              if ft = [] then ab
              else if beginsWith ['.'] ft then (ab.1 ++ [lower ft], ab.2)
              else (ab.1, ab.2 ++ [normcase fold ft])) =
                (ab.1 ++ [lower (strip t0)], ab.2) := by
            simp [h0, hdot]
          rw [hstep]
          constructor
          · intro e he
            rcases (ih _).1 e he with h | ⟨t, ht, h1, h2, h3⟩
            · rcases List.mem_append.mp h with h' | h'
              · exact Or.inl h'
              · rw [List.mem_singleton] at h'
                exact Or.inr ⟨t0, List.mem_cons_self _ _, h0, hdot, h'⟩
            · exact Or.inr ⟨t, List.mem_cons_of_mem _ ht, h1, h2, h3⟩
          · intro x hx
            rcases (ih _).2 x hx with h | ⟨t, ht, h1, h2, h3⟩
            · exact Or.inl h
            · exact Or.inr ⟨t, List.mem_cons_of_mem _ ht, h1, h2, h3⟩
        · have hdot' : beginsWith ['.'] (strip t0) = false :=
            eq_false_of_ne_true hdot
          have hstep : (let ft := strip t0
              if ft = [] then ab
              else if beginsWith ['.'] ft then (ab.1 ++ [lower ft], ab.2)
              else (ab.1, ab.2 ++ [normcase fold ft])) =
                (ab.1, ab.2 ++ [normcase fold (strip t0)]) := by
            simp [h0, hdot']
          rw [hstep]
          constructor
          · intro e he
            rcases (ih _).1 e he with h | ⟨t, ht, h1, h2, h3⟩
            · exact Or.inl h
            · exact Or.inr ⟨t, List.mem_cons_of_mem _ ht, h1, h2, h3⟩
          · intro x hx
            rcases (ih _).2 x hx with h | ⟨t, ht, h1, h2, h3⟩
            · rcases List.mem_append.mp h with h' | h'
              · exact Or.inl h'
              · rw [List.mem_singleton] at h'
                exact Or.inr ⟨t0, List.mem_cons_self _ _, h0, hdot', h'⟩
            · exact Or.inr ⟨t, List.mem_cons_of_mem _ ht, h1, h2, h3⟩

/-- If two strings agree after `normcase fold` they agree after full
lowercasing (the case-insensitive comparison): under the identity they are
equal outright, under folding the hypothesis is exactly that. -/
theorem lower_eq_of_normcase_eq (fold : Bool) (a b : Str)
    (h : normcase fold a = normcase fold b) : lower a = lower b := by
  cases fold with
  | false =>
      simp only [normcase, Bool.false_eq_true, if_neg, reduceIte] at h
      exact congrArg lower h
  | true => simpa [normcase] using h

/-- Claim C5: a directory-filter token without a leading dot matches a file
only by whole-filename equality (case-insensitive in the `normcase` sense,
hence with equal lowercasings) — never as an implied extension or suffix:
any successful non-include-all match is produced either by a dot token
(lowercased suffix of the normcased filename) or by a non-dot token whose
normcase equals the normcased filename. -/
theorem non_dot_token_exact_match_only (fold : Bool) (s fn : Str)
    (hmatch : includeByFilter fold (parseFilterTokens fold s).1
        (parseFilterTokens fold s).2 fn = true)
    (hne : (parseFilterTokens fold s).1 ≠ [] ∨ (parseFilterTokens fold s).2 ≠ []) :
    ∃ t ∈ splitComma s, strip t ≠ [] ∧
      ((beginsWith ['.'] (strip t) = true ∧
         endsWithL (lower (strip t)) (normcase fold fn) = true) ∨
       (beginsWith ['.'] (strip t) = false ∧
         normcase fold fn = normcase fold (strip t) ∧ lower fn = lower (strip t))) := by
  have hsound := parse_foldl_sound fold (splitComma s) ([], [])
  unfold includeByFilter at hmatch
  have hcond : ((parseFilterTokens fold s).1.isEmpty &&
      (parseFilterTokens fold s).2.isEmpty) = false := by
    rcases hne with h | h
    · simp [List.isEmpty_iff, h]
    · simp [List.isEmpty_iff, h]
  rw [if_neg (by simp [hcond])] at hmatch
  by_cases hx : (parseFilterTokens fold s).2.contains (normcase fold fn) = true
  · have hmem : normcase fold fn ∈ (parseFilterTokens fold s).2 := List.elem_iff.mp hx
    rcases hsound.2 _ hmem with h | ⟨t, ht, h1, h2, h3⟩
    · simp at h
    · exact ⟨t, ht, h1, Or.inr ⟨h2, h3,
        lower_eq_of_normcase_eq fold fn (strip t) h3⟩⟩
  · rw [if_neg hx] at hmatch
    rcases List.any_eq_true.mp hmatch with ⟨e, he, hend⟩
    rcases hsound.1 e he with h | ⟨t, ht, h1, h2, h3⟩
    · simp at h
    · exact ⟨t, ht, h1, Or.inl ⟨h2, h3 ▸ hend⟩⟩

/-- Witness for the exact-match theorem: the filter string `md` matched
against the file name `md` itself. -/
theorem non_dot_token_exact_match_only_witness :
    (includeByFilter false (parseFilterTokens false "md".toList).1
        (parseFilterTokens false "md".toList).2 "md".toList = true ∧
      ((parseFilterTokens false "md".toList).1 ≠ [] ∨
        (parseFilterTokens false "md".toList).2 ≠ [])) ∧
    ∃ t ∈ splitComma "md".toList, strip t ≠ [] ∧
      ((beginsWith ['.'] (strip t) = true ∧
         endsWithL (lower (strip t)) (normcase false "md".toList) = true) ∨
       (beginsWith ['.'] (strip t) = false ∧
         normcase false "md".toList = normcase false (strip t) ∧
         lower "md".toList = lower (strip t))) :=
  ⟨⟨by decide, by decide⟩,
   non_dot_token_exact_match_only false "md".toList "md".toList (by decide) (by decide)⟩

/-!
Order lemmas for the ordinal string comparison and the stable sort, needed to
characterize the sorted output of the aggregation step.
-/

/-- The comparison `strLtB` is asymmetric. -/
theorem strLtB_asymm (a : Str) : ∀ b, strLtB a b = true → strLtB b a = false := by
  induction a with
  | nil => intro b h; cases b <;> simp [strLtB] at h ⊢
  | cons x xs ih =>
      intro b h
      cases b with
      | nil => simp [strLtB] at h
      | cons y ys =>
          rw [strLtB] at h ⊢
          by_cases hxy : x < y
          · have h1 : ¬ y < x := lt_asymm hxy
            have h2 : y ≠ x := fun hc => absurd (hc ▸ hxy) (lt_irrefl x)
            simp [h1, h2]
          · by_cases hxeq : x = y
            · subst hxeq
              rw [if_neg (lt_irrefl x), if_pos rfl] at h ⊢
              exact ih _ h
            · simp [hxy, hxeq] at h

/-- The comparison `strLtB` is transitive. -/
theorem strLtB_trans (a : Str) :
    ∀ b c, strLtB a b = true → strLtB b c = true → strLtB a c = true := by
  induction a with
  | nil =>
      intro b c hab hbc
      cases b with
      | nil => simp [strLtB] at hab
      | cons y ys =>
          cases c with
          | nil => simp [strLtB] at hbc
          | cons z zs => simp [strLtB]
  | cons x xs ih =>
      intro b c hab hbc
      cases b with
      | nil => simp [strLtB] at hab
      | cons y ys =>
          cases c with
          | nil => simp [strLtB] at hbc
          | cons z zs =>
              rw [strLtB] at hab hbc ⊢
              by_cases hxy : x < y
              · by_cases hyz : y < z
                · simp [lt_trans hxy hyz]
                · by_cases hyzeq : y = z
                  · simp [hyzeq ▸ hxy]
                  · simp [hyz, hyzeq] at hbc
              · by_cases hxyeq : x = y
                · subst hxyeq
                  simp only [lt_irrefl, reduceIte, if_pos rfl] at hab
                  by_cases hyz : x < z
                  · simp [hyz]
                  · by_cases hyzeq : x = z
                    · subst hyzeq
                      simp only [lt_irrefl, reduceIte, if_pos rfl] at hbc ⊢
                      exact ih _ _ (by simpa using hab) (by simpa using hbc)
                    · simp [hyz, hyzeq] at hbc
                · simp [hxy, hxyeq] at hab

/-- Two strings neither of which is ordinally below the other are equal. -/
theorem strLtB_connex (a : Str) :
    ∀ b, strLtB a b = false → strLtB b a = false → a = b := by
  induction a with
  | nil => intro b h1 _; cases b with
      | nil => rfl
      | cons y ys => simp [strLtB] at h1
  | cons x xs ih =>
      intro b h1 h2
      cases b with
      | nil => simp [strLtB] at h2
      | cons y ys =>
          rw [strLtB] at h1 h2
          by_cases hxy : x < y
          · simp [hxy] at h1
          · by_cases hyx : y < x
            · simp [hyx] at h2
            · have hxyeq : x = y := le_antisymm (not_lt.mp hyx) (not_lt.mp hxy)
              subst hxyeq
              simp only [lt_irrefl, reduceIte, if_pos rfl] at h1 h2
              exact congrArg (x :: ·) (ih _ (by simpa using h1) (by simpa using h2))

/-- The comparison `strLeB` is total. -/
theorem strLeB_total (a b : Str) : strLeB a b = true ∨ strLeB b a = true := by
  unfold strLeB
  by_cases h : strLtB b a = true
  · right
    rw [strLtB_asymm b a h]
    rfl
  · left
    rw [eq_false_of_ne_true h]
    rfl

/-- The comparison `strLeB` is transitive. -/
theorem strLeB_trans (a b c : Str) (h1 : strLeB a b = true) (h2 : strLeB b c = true) :
    strLeB a c = true := by
  unfold strLeB at h1 h2 ⊢
  by_cases hca : strLtB c a = true
  · exfalso
    have hba : strLtB b a = false := by
      cases hb : strLtB b a
      · rfl
      · rw [hb] at h1; simp at h1
    have hcb : strLtB c b = false := by
      cases hc : strLtB c b
      · rfl
      · rw [hc] at h2; simp at h2
    by_cases hbc : strLtB b c = true
    · exact absurd (strLtB_trans b c a hbc hca) (by simp [hba])
    · have : b = c := strLtB_connex b c (eq_false_of_ne_true hbc) hcb
      subst this
      simp [hca] at hba
  · rw [eq_false_of_ne_true hca]
    rfl

/-- Inserting with `insertLe` permutes the cons. -/
theorem insertLe_perm (le : α → α → Bool) (a : α) (l : List α) :
    (insertLe le a l).Perm (a :: l) := by
  induction l with
  | nil => exact List.Perm.refl _
  | cons b l ih =>
      unfold insertLe
      by_cases h : le a b = true
      · rw [if_pos h]
      · rw [if_neg h]
        exact (List.Perm.cons b ih).trans (List.Perm.swap a b l)

/-- Sorting with `sortLe` permutes its input. -/
theorem sortLe_perm (le : α → α → Bool) (l : List α) : (sortLe le l).Perm l := by
  induction l with
  | nil => exact List.Perm.refl _
  | cons a l ih => exact (insertLe_perm le a (sortLe le l)).trans (List.Perm.cons a ih)

/-- Inserting with `insertLe` preserves pairwise sortedness for a total transitive `le`. -/
theorem pairwise_insertLe (le : α → α → Bool)
    (htrans : ∀ a b c, le a b = true → le b c = true → le a c = true)
    (htot : ∀ a b, le a b = true ∨ le b a = true) (a : α) (l : List α)
    (hl : l.Pairwise (fun x y => le x y = true)) :
    (insertLe le a l).Pairwise (fun x y => le x y = true) := by
  induction l with
  | nil => simp [insertLe]
  | cons b l ih =>
      rcases List.pairwise_cons.mp hl with ⟨hb, hl'⟩
      unfold insertLe
      by_cases h : le a b = true
      · rw [if_pos h]
        refine List.pairwise_cons.mpr ⟨?_, hl⟩
        intro y hy
        rcases List.mem_cons.mp hy with rfl | hy'
        · exact h
        · exact htrans a b y h (hb y hy')
      · rw [if_neg h]
        have hba : le b a = true := (htot a b).resolve_left h
        refine List.pairwise_cons.mpr ⟨?_, ih hl'⟩
        intro y hy
        rcases List.mem_cons.mp ((insertLe_perm le a l).mem_iff.mp hy) with rfl | hy'
        · exact hba
        · exact hb y hy'

/-- Sorting with `sortLe` sorts, for a total transitive `le`. -/
theorem sortLe_pairwise (le : α → α → Bool)
    (htrans : ∀ a b c, le a b = true → le b c = true → le a c = true)
    (htot : ∀ a b, le a b = true ∨ le b a = true) (l : List α) :
    (sortLe le l).Pairwise (fun x y => le x y = true) := by
  induction l with
  | nil => simp [sortLe]
  | cons a l ih => exact pairwise_insertLe le htrans htot a _ ih

/-- Claim C6 counterexample: in the tree fixture the leaf
`proj/src/sub/a.py` is in the inclusion map, so `sub` is an ancestor of an
included leaf, yet the rendered tree holds the bare line `      └── sub` and
no line at all ends in `[...]` — the `[...]` mark and the forced recursion
only ever follow explicitly selected descendants, not merely included
ones. -/
theorem tree_ancestor_included_cx :
    (["proj".toList, "src".toList, "sub".toList, "a.py".toList] ∈
      keysOf (resolveSelections envTreeCx [selTreeCx]).files) ∧
    ("      └── sub".toList ∈ treeCxLines) ∧
    (treeCxLines.all (fun l => !(endsWithL " [...]".toList l)) = true) := by
  decide

/-- Claim C6 (amended): a directory entry that is neither explicitly selected
nor has an explicitly selected descendant shows neither `[*]` nor `[...]`;
a directory entry that is not selected but has an explicitly selected
descendant shows `[...]` and passes the recursion guard whatever the current
indentation is.  (Ancestors of leaves that are only filter-included receive
no mark and no forced recursion.) -/
theorem tree_marker_recursion_amended (ctx : TreeCtx) (key : PathC) (name : Str)
    (pfx : Str) (hsel : hasKey ctx.selData key = false) :
    (ancestorOfSelected ctx key = false → treeEntryMark ctx true key name = []) ∧
    (ancestorOfSelected ctx key = true →
      treeEntryMark ctx true key name = " [...]".toList ∧
      treeShouldRecurse ctx key pfx = true) := by
  constructor
  · intro hanc
    unfold treeEntryMark
    simp [hsel, hanc]
  · intro hanc
    constructor
    · unfold treeEntryMark
      simp [hsel, hanc]
    · unfold treeShouldRecurse
      simp [hanc]

/-- Witness for the amended tree-marker theorem: the project root key in the
tree fixture, with a 16-character indentation (beyond the depth cutoff). -/
theorem tree_marker_recursion_amended_witness :
    (hasKey ctxTreeCx.selData ([] : PathC) = false) ∧
    ((ancestorOfSelected ctxTreeCx ([] : PathC) = false →
        treeEntryMark ctxTreeCx true [] "x".toList = []) ∧
     (ancestorOfSelected ctxTreeCx ([] : PathC) = true →
        treeEntryMark ctxTreeCx true [] "x".toList = " [...]".toList ∧
        treeShouldRecurse ctxTreeCx [] "                ".toList = true)) :=
  ⟨by decide,
   tree_marker_recursion_amended ctxTreeCx [] "x".toList "                ".toList (by decide)⟩

/-- One loop iteration appends exactly one warning line when the selection's
path does not exist, and none otherwise. -/
theorem processSelection_warnings (env : GenEnv) (acc : GenAcc) (sel : Selection) :
    (processSelection env acc sel).warnings =
      acc.warnings ++
        (if (findEntry env.fuel env.fs sel.path).isNone then [warningLine env sel.path]
         else []) := by
  unfold processSelection
  cases hfind : findEntry env.fuel env.fs sel.path with
  | none => simp
  | some e =>
      dsimp only
      by_cases hdir : sel.isDirectory = true
      · simp [hdir]
      · rw [if_neg hdir]
        by_cases hctx : sel.path = ctxKey env
        · simp [hctx]
        · simp [hctx]

/-- The warnings after the whole selection loop: one per missing selection,
in selection order. -/
theorem warnings_foldl (env : GenEnv) (sels : List Selection) (acc : GenAcc) :
    (sels.foldl (processSelection env) acc).warnings =
      acc.warnings ++
        (sels.filter (fun s => (findEntry env.fuel env.fs s.path).isNone)).map
          (fun s => warningLine env s.path) := by
  induction sels generalizing acc with
  | nil => simp
  | cons sel rest ih =>
      simp only [List.foldl_cons, List.filter_cons]
      rw [ih, processSelection_warnings]
      cases hfind : findEntry env.fuel env.fs sel.path with
      | none => simp [List.append_assoc]
      | some e => simp

/-- An append-accumulating `foldl` from an initial segment is that segment
followed by the flattened per-element lists. -/
theorem foldl_append_flatten (f : α → List β) (l : List α) (init : List β) :
    l.foldl (fun lines kv => lines ++ f kv) init = init ++ (l.map f).flatten := by
  induction l generalizing init with
  | nil => simp
  | cons a l ih => simp [ih, List.append_assoc]

/-- The aggregation loop emits exactly the concatenation of the per-file
blocks of the sorted inclusion dict. -/
theorem contentBlocks_eq_flatten (env : GenEnv) (binExts : List Str)
    (files : List (PathC × Str)) :
    contentBlocks env binExts files =
      ((sortedIncluded files).map (fun kv =>
        fileBlock binExts kv.1 kv.2 (readOutcome env kv.1))).flatten := by
  unfold contentBlocks
  rw [foldl_append_flatten]
  simp

/-- Claim C7 counterexample: in the order fixture the `B.py` content block
precedes the `a.py` block, although the case-insensitive comparison orders
`a.py` strictly before `B.py` — the sort key is the display path under
Python's ordinal (case-sensitive) string comparison, not a case-insensitive
one. -/
theorem blocks_sorted_case_sensitive_cx :
    ("----- File: B.py -----".toList ∈ orderOut) ∧
    ("----- File: a.py -----".toList ∈ orderOut) ∧
    (orderOut.indexOf "----- File: B.py -----".toList <
      orderOut.indexOf "----- File: a.py -----".toList) ∧
    strLtB (lower "a.py".toList) (lower "B.py".toList) = true := by
  decide

/-- Claim C7 (amended): the aggregated output is the structure block (header,
tree, footer), then one bracketed warning line per missing selection in
selection order, then exactly one content block per included file with the
blocks sorted by display path under the ordinal case-sensitive string
comparison (a stable sort of the inclusion dict). -/
theorem output_order_amended (env : GenEnv) (sels : List Selection)
    (binExts : List Str) :
    generateContextFileData env sels binExts =
      [structureHeaderLine, generateProjectTreeSummary env sels, structureFooterLine] ++
        (sels.filter (fun s => (findEntry env.fuel env.fs s.path).isNone)).map
          (fun s => warningLine env s.path) ++
        ((sortedIncluded (resolveSelections env sels).files).map (fun kv =>
          fileBlock binExts kv.1 kv.2 (readOutcome env kv.1))).flatten ∧
    (sortedIncluded (resolveSelections env sels).files).Pairwise
      (fun a b => strLeB a.2 b.2 = true) ∧
    (sortedIncluded (resolveSelections env sels).files).Perm
      (resolveSelections env sels).files := by
  refine ⟨?_, ?_, sortLe_perm _ _⟩
  · unfold generateContextFileData
    dsimp only
    rw [contentBlocks_eq_flatten]
    have hw : (resolveSelections env sels).warnings =
        (sels.filter (fun s => (findEntry env.fuel env.fs s.path).isNone)).map
          (fun s => warningLine env s.path) := by
      unfold resolveSelections
      rw [warnings_foldl]
      rfl
    rw [hw]
  · unfold sortedIncluded
    exact sortLe_pairwise (fun a b : PathC × Str => strLeB a.2 b.2)
      (fun a b c h1 h2 => strLeB_trans a.2 b.2 c.2 h1 h2)
      (fun a b => strLeB_total a.2 b.2) _

/-- Claim C8: when opening or reading an included file that was not
classified as binary raises, the aggregation emits for it exactly the
three-line error block (header, `Error: <message>`, footer) and continues:
the content section is the concatenation of independently computed per-file
blocks, so every remaining included file still produces its own block, and
the aggregation is a total function — no exception reaches the caller. -/
theorem error_block_and_continuation (env : GenEnv) (binExts : List Str)
    (files : List (PathC × Str)) (key : PathC) (disp m : Str)
    (hbin : isBinaryExt binExts key = false) :
    fileBlock binExts key disp (.readError m) =
      ["----- Error reading file: ".toList ++ disp ++ " -----".toList,
       "Error: ".toList ++ m,
       "----- End Error: ".toList ++ disp ++ " -----\n".toList] ∧
    contentBlocks env binExts files =
      ((sortedIncluded files).map (fun kv =>
        fileBlock binExts kv.1 kv.2 (readOutcome env kv.1))).flatten := by
  refine ⟨?_, contentBlocks_eq_flatten env binExts files⟩
  unfold fileBlock
  rw [hbin]
  simp

/-- Witness for the error-block theorem: the unreadable `bad.py` of the error
fixture with an empty binary-extension set. -/
theorem error_block_and_continuation_witness :
    (isBinaryExt [] ["proj".toList, "bad.py".toList] = false) ∧
    (fileBlock [] ["proj".toList, "bad.py".toList] "bad.py".toList
        (.readError "Permission denied".toList) =
      ["----- Error reading file: ".toList ++ "bad.py".toList ++ " -----".toList,
       "Error: ".toList ++ "Permission denied".toList,
       "----- End Error: ".toList ++ "bad.py".toList ++ " -----\n".toList] ∧
     contentBlocks envErr [] errFiles =
      ((sortedIncluded errFiles).map (fun kv =>
        fileBlock [] kv.1 kv.2 (readOutcome envErr kv.1))).flatten) :=
  ⟨by decide,
   error_block_and_continuation envErr [] errFiles ["proj".toList, "bad.py".toList]
     "bad.py".toList "Permission denied".toList (by decide)⟩

/-- Claim C9: deleting a category nulls `category_id` on every referencing
selection row and removes only the category record: the selections table
keeps its length, every other field of every selection row is unchanged,
and the categories table loses exactly the rows carrying the deleted id. -/
theorem remove_category_frame (db : Db) (cid : Nat) :
    ((removeCategoryAndUncategorizeItems db cid).selections.length =
      db.selections.length) ∧
    (∀ i : Nat, ∀ r' : SelectionRow,
      (removeCategoryAndUncategorizeItems db cid).selections[i]? = some r' ↔
        ∃ r, db.selections[i]? = some r ∧ r'.id = r.id ∧ r'.projectId = r.projectId ∧
          r'.path = r.path ∧ r'.isDirectory = r.isDirectory ∧
          r'.fileTypes = r.fileTypes ∧
          r'.categoryId = (if r.categoryId = some cid then none else r.categoryId)) ∧
    (∀ c : CategoryRow, c ∈ (removeCategoryAndUncategorizeItems db cid).categories ↔
      c ∈ db.categories ∧ c.id ≠ cid) := by
  refine ⟨by simp [removeCategoryAndUncategorizeItems], ?_, ?_⟩
  · intro i r'
    unfold removeCategoryAndUncategorizeItems
    dsimp only
    rw [List.getElem?_map]
    cases hr : db.selections[i]? with
    | none => simp
    | some r =>
        simp only [Option.map_some', Option.some.injEq]
        constructor
        · rintro rfl
          refine ⟨r, rfl, ?_⟩
          unfold uncategorizeRow
          by_cases h : r.categoryId = some cid
          · simp [h]
          · simp [h]
        · rintro ⟨r0, hr0, h1, h2, h3, h4, h5, h6⟩
          subst hr0
          cases r' with
          | mk i1 p1 pa1 d1 c1 f1 =>
              cases r with
              | mk i2 p2 pa2 d2 c2 f2 =>
                  simp only at h1 h2 h3 h4 h5 h6
                  subst h1
                  subst h2
                  subst h3
                  subst h4
                  subst h5
                  unfold uncategorizeRow
                  by_cases h : c2 = some cid
                  · simp only [h, if_pos rfl] at h6
                    subst h6
                    simp [h]
                  · simp only [h, if_neg, reduceIte] at h6
                    subst h6
                    simp [h]
  · intro c
    unfold removeCategoryAndUncategorizeItems
    dsimp only
    rw [List.mem_filter]
    simp

/-- Claim C10: the artifact's leaf name is among the tree-ignored names the
summary assembles, so a `build_tree` entry bearing that name is kept in a
directory listing exactly when its own relative path is an explicitly
selected key — otherwise the rendered tree omits it. -/
theorem artifact_name_tree_ignored (env : GenEnv) (selData : List (PathC × SelInfo))
    (parentRel : PathC) (name : Str) (hname : name = env.leafName) :
    env.leafName ∈ defaultTreeIgnoredNames ++ [env.leafName] ∧
    keepTreeEntry ⟨env.fold, selData, defaultTreeIgnoredNames ++ [env.leafName]⟩
        parentRel name =
      hasKey selData (normKey env.fold (parentRel ++ [name])) := by
  subst hname
  refine ⟨List.mem_append_right _ (List.mem_singleton_self _), ?_⟩
  unfold keepTreeEntry
  dsimp only
  have hcont : (defaultTreeIgnoredNames ++ [env.leafName]).contains env.leafName = true :=
    List.elem_iff.mpr (List.mem_append_right _ (List.mem_singleton_self _))
  rw [hcont]
  cases hb : beginsWith ['.'] env.leafName <;>
    cases hs : hasKey selData (normKey env.fold (parentRel ++ [env.leafName])) <;>
      simp [hb, hs]

/-- Witness for the artifact-omission theorem: the artifact name
`context.txt` of the order fixture, in the project root with no selected
paths. -/
theorem artifact_name_tree_ignored_witness :
    ("context.txt".toList = envOrder.leafName) ∧
    (envOrder.leafName ∈ defaultTreeIgnoredNames ++ [envOrder.leafName] ∧
     keepTreeEntry ⟨envOrder.fold, [], defaultTreeIgnoredNames ++ [envOrder.leafName]⟩
         [] "context.txt".toList =
       hasKey ([] : List (PathC × SelInfo))
         (normKey envOrder.fold ([] ++ ["context.txt".toList]))) :=
  ⟨by decide, artifact_name_tree_ignored envOrder [] [] "context.txt".toList (by decide)⟩

end ContextDropper
